import Mathlib

/-!
Verification of the tile-area geometry and iteration engine of
`src/map/tilearea.h` (OpenTTD-patches).

Machine integers: `TileIndex` and the iterator counters are 32-bit unsigned
(`uint`), modelled as `Nat` with explicit reduction modulo `2^32` at every
arithmetic step that the C++ code performs on them.  The `w`/`h` fields of
`TileArea` are `uint16`; the explicit constructor takes them as `uint8`.

The grid-addressing collaborator (`coord.h`: `TileX`, `TileY`, `TileXY`,
`TileDiffXY`, `INVALID_TILE`, `TILE_ADDXY`, `ClampU`) is not part of the
provided sources; it is modelled from the spec's external-interface contract
(linear index with (x,y) decomposition over a map of row pitch `sx`, an
all-ones invalid sentinel, scalar clamp).
-/

namespace TileAreaSpec

/-- The constant `2^32`, the modulus of 32-bit unsigned (`uint` / `TileIndex`) arithmetic. -/
def u32 : Nat := 4294967296

/-- Modelled from the spec: the reserved "no cell" sentinel `INVALID_TILE`,
the all-ones 32-bit tile index. -/
def INVALID_TILE : Nat := u32 - 1

/-- Unsigned 32-bit addition. -/
def uadd (a b : Nat) : Nat := (a + b) % u32

/-- Modelled from the spec: grid addressing `compose(x, y) -> cell` for a map
of row pitch `sx` (linear index = `y * sx + x`). -/
def TileXY (sx x y : Nat) : Nat := y * sx + x

/-- Modelled from the spec: x component of `decompose(cell)`. -/
def TileX (sx t : Nat) : Nat := t % sx

/-- Modelled from the spec: y component of `decompose(cell)`. -/
def TileY (sx t : Nat) : Nat := t / sx

/-- Modelled from the spec: linear-index delta of moving by `(x, y)`. -/
def TileDiffXY (sx x y : Nat) : Nat := y * sx + x

/-- Modelled from the spec: scalar clamp `clamp(value, lo, hi)` used by
`get_closest_tile` (`ClampU` of the collaborator). -/
def ClampU (v lo hi : Nat) : Nat := if v < lo then lo else if hi < v then hi else v

/-- The C++ struct `TileArea { TileIndex tile; uint16 w; uint16 h; }`. -/
structure TileArea where
  tile : Nat
  w : Nat
  h : Nat
deriving DecidableEq

/-- The explicit constructor `TileArea(TileIndex tile, uint8 w, uint8 h)`:
the caller's width/height arguments pass through the `uint8` parameter type
(reduction modulo 256) before being stored in the `uint16` fields. -/
def TileArea.mk8 (tile w h : Nat) : TileArea :=
  { tile := tile % u32, w := w % 256, h := h % 256 }

/-- Method `TileArea::Clear()`: origin becomes `INVALID_TILE`, extents become 0. -/
def TileArea.Clear (_ : TileArea) : TileArea :=
  { tile := INVALID_TILE, w := 0, h := 0 }

/-- Method `TileArea::GetCenterTile()`: `TILE_ADDXY(this->tile, this->w / 2, this->h / 2)`,
with `TILE_ADDXY` modelled from the spec as plain index addition. -/
def TileArea.GetCenterTile (sx : Nat) (ta : TileArea) : Nat :=
  uadd ta.tile (TileDiffXY sx (ta.w / 2) (ta.h / 2))

/-- Method `TileArea::get_closest_tile(TileIndex t)`: returns `INVALID_TILE` when the
stored origin is the invalid tile, otherwise clamps the reference tile's x and
y independently into `[x, x + w - 1]` and `[y, y + h - 1]` (32-bit unsigned
arithmetic) and recomposes. -/
def TileArea.get_closest_tile (sx : Nat) (ta : TileArea) (t : Nat) : Nat :=
  if ta.tile = INVALID_TILE then INVALID_TILE
  else
    let x := TileX sx ta.tile
    let xc := ClampU (TileX sx t) x (uadd (uadd x ta.w) (u32 - 1))
    let y := TileY sx ta.tile
    let yc := ClampU (TileY sx t) y (uadd (uadd y ta.h) (u32 - 1))
    TileXY sx xc yc

/-- The state of an `OrthogonalTileIterator`: inherited current tile plus the
fields `w`, `rowdiff`, `x`, `y` (all C++ `uint`). -/
structure OrthState where
  tile : Nat
  w : Nat
  rowdiff : Nat
  x : Nat
  y : Nat
deriving DecidableEq

/-- Constructor `OrthogonalTileIterator(const TileArea &ta)`: current tile is
`INVALID_TILE` when `ta.w == 0 || ta.h == 0`, else `ta.tile`;
`rowdiff = TileDiffXY(1, 1) - ta.w` in unsigned 32-bit arithmetic. -/
def mkOrth (sx : Nat) (ta : TileArea) : OrthState :=
  { tile := if ta.w = 0 ∨ ta.h = 0 then INVALID_TILE else ta.tile
    w := ta.w
    rowdiff := (TileDiffXY sx 1 1 + (u32 - ta.w % u32)) % u32
    x := ta.w
    y := ta.h }

/-- The body of `OrthogonalTileIterator::Next()` (after its assertion):
`if (--x > 0) tile++; else if (--y > 0) { x = w; tile += rowdiff; }
else tile = INVALID_TILE;` with `--` the wrapping 32-bit decrement. -/
def orthNext (s : OrthState) : OrthState :=
  let x1 := (s.x + (u32 - 1)) % u32
  if 0 < x1 then
    { s with x := x1, tile := (s.tile + 1) % u32 }
  else
    let y1 := (s.y + (u32 - 1)) % u32
    if 0 < y1 then
      { s with x := s.w, y := y1, tile := (s.tile + s.rowdiff) % u32 }
    else
      { s with x := x1, y := y1, tile := INVALID_TILE }

/-- The orthogonal iterator after `k` advances from its construction. -/
def orthIter (sx : Nat) (ta : TileArea) (k : Nat) : OrthState :=
  orthNext^[k] (mkOrth sx ta)

/-- Method `OrthogonalTileIterator::Clone()`: copy construction, a memberwise copy of
the five scalar fields. -/
def orthClone (s : OrthState) : OrthState :=
  { tile := s.tile, w := s.w, rowdiff := s.rowdiff, x := s.x, y := s.y }

/-- Operator `TileIterator::operator++()` for the orthogonal iterator: asserts that the
current tile is not `INVALID_TILE`, then calls `Next()`, which repeats the same
assertion at its head.  A failed assertion is modelled as `none`. -/
def orthNextChecked (s : OrthState) : Option OrthState :=
  if s.tile = INVALID_TILE then none else some (orthNext s)

/-- The operator `++` itself: outer assertion, then the virtual `Next()` call. -/
def orthIncr (s : OrthState) : Option OrthState :=
  if s.tile = INVALID_TILE then none else orthNextChecked s

/-- The state of a `DiagonalTileIterator` as declared in `tilearea.h`:
inherited current tile plus `x`, `y`, `odd`, `s1`, `s2x`, `s2y`, `w`, `n`, `m`. -/
structure DiagState where
  tile : Nat
  x : Nat
  y : Nat
  odd : Bool
  s1 : Int
  s2x : Int
  s2y : Int
  w : Nat
  n : Nat
  m : Nat
deriving DecidableEq

/-- Method `DiagonalTileIterator::Clone()`: copy construction, a memberwise copy of
the ten scalar fields. -/
def diagClone (d : DiagState) : DiagState :=
  { tile := d.tile, x := d.x, y := d.y, odd := d.odd, s1 := d.s1, s2x := d.s2x
    s2y := d.s2y, w := d.w, n := d.n, m := d.m }

/-- Models that the default constructor `TileArea()` has an empty body: it
writes none of the three fields, so every field assignment is a possible
observed state of a default-constructed area.  (Predicate over the states a
default construction may leave behind.) -/
def defaultConstructed (_ : TileArea) : Prop := True

/-- The closed form of the orthogonal iterator's state after visiting cell
`(x0 + i, y0 + j)` of a `w × h` rectangle based at `(x0, y0)`: remaining
columns `w - i`, remaining rows `h - j`, `rowdiff = sx + 1 - w`. -/
def stateAt (sx x0 y0 w h i j : Nat) : OrthState :=
  { tile := TileXY sx (x0 + i) (y0 + j)
    w := w
    rowdiff := sx + 1 - w
    x := w - i
    y := h - j }

/-- Modelled from the spec: one diagonal "ring" of the diamond — the map cells
`(x, u - x)` on the diagonal `x + y = u` whose rotated coordinate `x - y`
lies in `[vmin, vmax]`, listed by increasing `x`.  (`DiagonalTileIterator`'s
`Next()` and constructor live in `tilearea.cpp`, which is not among the
provided sources; §4.4 of the spec leaves the per-row arithmetic free subject
to the ring-order / completeness / uniqueness invariant.) -/
def ringCells (sx sy : Nat) (vmin vmax : Int) (u : Nat) : List Nat :=
  ((List.range sx).filter (fun x =>
      decide (x ≤ u) && decide (u - x < sy) &&
      decide (vmin ≤ 2 * (x : Int) - (u : Int)) &&
      decide (2 * (x : Int) - (u : Int) ≤ vmax))).map
    (fun x => TileXY sx x (u - x))

/-- The rotated coordinates `x + y` from `a` to `b` inclusive, in order. -/
def uRange (a b : Nat) : List Nat :=
  if a ≤ b then List.range' a (b - a + 1) else (List.range' b (a - b + 1)).reverse

/-- Modelled from the spec: the yield sequence of a `DiagonalTileIterator`
constructed from corners `b` and `e` — rings in order of the rotated
coordinate `x + y` from `b`'s value to `e`'s value, each ring the cells whose
rotated coordinate `x - y` lies between the corners' values. -/
def diagTiles (sx sy b e : Nat) : List Nat :=
  (uRange (TileX sx b + TileY sx b) (TileX sx e + TileY sx e)).flatMap
    (ringCells sx sy
      (min ((TileX sx b : Int) - TileY sx b) ((TileX sx e : Int) - TileY sx e))
      (max ((TileX sx b : Int) - TileY sx b) ((TileX sx e : Int) - TileY sx e)))

/-- The diagonal iterator's current cell after `k` advances: the `k`-th
yielded cell, or `INVALID_TILE` once the traversal is exhausted. -/
def diagCurrent (sx sy b e k : Nat) : Nat :=
  (diagTiles sx sy b e).getD k INVALID_TILE

/-- Membership in the diamond region bounded by corners `b` and `e`: both
rotated coordinates of `t` lie between the corners' rotated coordinates. -/
def InDiamond (sx b e t : Nat) : Prop :=
  min (TileX sx b + TileY sx b) (TileX sx e + TileY sx e) ≤ TileX sx t + TileY sx t ∧
  TileX sx t + TileY sx t ≤ max (TileX sx b + TileY sx b) (TileX sx e + TileY sx e) ∧
  min ((TileX sx b : Int) - TileY sx b) ((TileX sx e : Int) - TileY sx e) ≤
    (TileX sx t : Int) - TileY sx t ∧
  (TileX sx t : Int) - TileY sx t ≤
    max ((TileX sx b : Int) - TileY sx b) ((TileX sx e : Int) - TileY sx e)

instance (sx b e t : Nat) : Decidable (InDiamond sx b e t) := by
  unfold InDiamond; infer_instance

/-- Claim C5: for every `TileArea` with `w = 0` or `h = 0`, the
`OrthogonalTileIterator` constructed from it has current tile `INVALID_TILE`
immediately, so the traversal yields zero cells. -/
theorem orth_empty_area_immediately_invalid (sx : Nat) (ta : TileArea)
    (h : ta.w = 0 ∨ ta.h = 0) : (mkOrth sx ta).tile = INVALID_TILE := by
  simp [mkOrth, h]

/-- Witness for C5 at the concrete empty area `⟨0, 0, 5⟩` on a map of pitch 4. -/
theorem orth_empty_area_immediately_invalid_witness :
    ((⟨0, 0, 5⟩ : TileArea).w = 0 ∨ (⟨0, 0, 5⟩ : TileArea).h = 0) ∧
    (mkOrth 4 ⟨0, 0, 5⟩).tile = INVALID_TILE :=
  ⟨Or.inl rfl, orth_empty_area_immediately_invalid 4 ⟨0, 0, 5⟩ (Or.inl rfl)⟩

/-- Claim C7: on a `Clear()`-ed area (origin `INVALID_TILE`, `w = h = 0`),
`GetCenterTile()` returns `INVALID_TILE`. -/
theorem center_tile_of_cleared_is_invalid (sx : Nat) (ta : TileArea) :
    TileArea.GetCenterTile sx (TileArea.Clear ta) = INVALID_TILE := by
  simp [TileArea.GetCenterTile, TileArea.Clear, uadd, TileDiffXY, INVALID_TILE, u32]

/-- Claim C9: the default constructor `TileArea()` initializes no field: every state
is a possible default-constructed state, in particular states with nonzero
width and height and an arbitrary (non-invalid) origin, and it is not the case
that default construction establishes the canonical empty state. -/
theorem default_ctor_uninitialized :
    (∀ a : TileArea, defaultConstructed a) ∧
    (∃ a : TileArea, defaultConstructed a ∧ a.w ≠ 0 ∧ a.h ≠ 0 ∧ a.tile ≠ INVALID_TILE) ∧
    ¬ (∀ a : TileArea, defaultConstructed a →
        a.tile = INVALID_TILE ∧ a.w = 0 ∧ a.h = 0) := by
  refine ⟨fun _ => trivial, ⟨⟨0, 1, 1⟩, trivial, by decide, by decide, by decide⟩, fun hA => ?_⟩
  have h := hA ⟨0, 1, 1⟩ trivial
  exact absurd h.2.1 (by decide)

/-- Claim C10: the explicit constructor takes `w`/`h` through `uint8` parameters:
the stored extents equal the arguments reduced modulo 256, hence are always
below 256 — an extent above 255 cannot be expressed through this constructor. -/
theorem mk8_extents_mod_256 (tile w h : Nat) :
    (TileArea.mk8 tile w h).w = w % 256 ∧ (TileArea.mk8 tile w h).h = h % 256 ∧
    (TileArea.mk8 tile w h).w < 256 ∧ (TileArea.mk8 tile w h).h < 256 :=
  ⟨rfl, rfl, Nat.mod_lt _ (by norm_num), Nat.mod_lt _ (by norm_num)⟩

/-- Claim C8: `Clone()` of either iterator copies every scalar field, giving a state
identical to the source; hence for every advance function and every `n`, the
`n`-step trajectories of clone and source coincide, and (the step functions
being pure functions of their own state) advancing one never alters the other. -/
theorem clone_identical_and_independent (s : OrthState) (d : DiagState) :
    orthClone s = s ∧ diagClone d = d ∧
    (∀ n : Nat, orthNext^[n] (orthClone s) = orthNext^[n] s) ∧
    (∀ step : DiagState → DiagState, ∀ n : Nat, step^[n] (diagClone d) = step^[n] d) := by
  have hs : orthClone s = s := rfl
  have hd : diagClone d = d := rfl
  exact ⟨hs, hd, fun n => by rw [hs], fun step n => by rw [hd]⟩

/-- Claim C6: `operator++` asserts that the current tile is not `INVALID_TILE`
(advance on an exhausted iterator traps); under that precondition the identical
assertion at the head of `Next()` is passed, so `Next()` runs unconditionally. -/
theorem incr_assertion (s : OrthState) :
    (s.tile = INVALID_TILE → orthIncr s = none) ∧
    (s.tile ≠ INVALID_TILE → orthIncr s = some (orthNext s)) := by
  constructor <;> intro h <;> simp [orthIncr, orthNextChecked, h]

/-- Witness for C6 at the freshly constructed iterator over the 1×1 area at
tile 0 (pitch 1). -/
theorem incr_assertion_witness :
    (mkOrth 1 ⟨0, 1, 1⟩).tile ≠ INVALID_TILE ∧
    orthIncr (mkOrth 1 ⟨0, 1, 1⟩) = some (orthNext (mkOrth 1 ⟨0, 1, 1⟩)) :=
  ⟨by decide, (incr_assertion (mkOrth 1 ⟨0, 1, 1⟩)).2 (by decide)⟩

/-- Counterexample to C3 as stated: the area `⟨tile 0, w = 0, h = 5⟩` has
width 0 (empty in the claim's sense) but a non-invalid origin, and
`get_closest_tile` returns tile 0, not `INVALID_TILE` — the code tests
emptiness by `tile == INVALID_TILE`, not by the extents. -/
theorem closest_tile_empty_claim_cex :
    ¬ (∀ (sx : Nat) (ta : TileArea) (t : Nat), ta.w = 0 ∨ ta.h = 0 →
        TileArea.get_closest_tile sx ta t = INVALID_TILE) := by
  intro hA
  have h := hA 4 ⟨0, 0, 5⟩ 0 (Or.inl rfl)
  revert h
  decide

/-- Claim C3 amended: for every `TileArea` whose origin is the invalid cell — in
particular every `Clear()`-ed area — `get_closest_tile` returns the invalid
cell, for every reference cell. -/
theorem closest_tile_invalid_origin (sx : Nat) (ta : TileArea) (t : Nat)
    (h : ta.tile = INVALID_TILE) :
    TileArea.get_closest_tile sx ta t = INVALID_TILE := by
  simp [TileArea.get_closest_tile, h]

/-- Witness for the amended C3 at a `Clear()`-ed area. -/
theorem closest_tile_invalid_origin_witness :
    (TileArea.Clear ⟨7, 3, 3⟩).tile = INVALID_TILE ∧
    TileArea.get_closest_tile 4 (TileArea.Clear ⟨7, 3, 3⟩) 9 = INVALID_TILE :=
  ⟨rfl, closest_tile_invalid_origin 4 (TileArea.Clear ⟨7, 3, 3⟩) 9 rfl⟩

/-- Claim C4: on a non-empty area with valid origin, `get_closest_tile` clamps the
reference tile's coordinates independently into the area's bounds, and a
reference tile already inside the area is returned unchanged. -/
theorem closest_tile_clamps (sx sy : Nat) (ta : TileArea) (t : Nat)
    (hsx : 0 < sx) (hsx16 : sx ≤ 65536) (hsy16 : sy ≤ 65536)
    (htile : ta.tile < sx * sy) (hne : ta.tile ≠ INVALID_TILE)
    (hw : 0 < ta.w) (hh : 0 < ta.h) (hw16 : ta.w < 65536) (hh16 : ta.h < 65536) :
    TileArea.get_closest_tile sx ta t =
      TileXY sx
        (ClampU (TileX sx t) (TileX sx ta.tile) (TileX sx ta.tile + ta.w - 1))
        (ClampU (TileY sx t) (TileY sx ta.tile) (TileY sx ta.tile + ta.h - 1)) ∧
    ((TileX sx ta.tile ≤ TileX sx t ∧ TileX sx t < TileX sx ta.tile + ta.w ∧
      TileY sx ta.tile ≤ TileY sx t ∧ TileY sx t < TileY sx ta.tile + ta.h) →
      TileArea.get_closest_tile sx ta t = t) := by
  have hx0 : TileX sx ta.tile < sx := Nat.mod_lt _ hsx
  have hy0 : TileY sx ta.tile < sy := Nat.div_lt_of_lt_mul htile
  have hux : uadd (uadd (TileX sx ta.tile) ta.w) (u32 - 1) =
      TileX sx ta.tile + ta.w - 1 := by
    unfold uadd u32
    omega
  have huy : uadd (uadd (TileY sx ta.tile) ta.h) (u32 - 1) =
      TileY sx ta.tile + ta.h - 1 := by
    unfold uadd u32
    omega
  have hmain : TileArea.get_closest_tile sx ta t =
      TileXY sx
        (ClampU (TileX sx t) (TileX sx ta.tile) (TileX sx ta.tile + ta.w - 1))
        (ClampU (TileY sx t) (TileY sx ta.tile) (TileY sx ta.tile + ta.h - 1)) := by
    rw [TileArea.get_closest_tile, if_neg hne]
    simp only [hux, huy]
  refine ⟨hmain, fun hin => ?_⟩
  obtain ⟨hx1, hx2, hy1, hy2⟩ := hin
  have hcx : ClampU (TileX sx t) (TileX sx ta.tile) (TileX sx ta.tile + ta.w - 1) =
      TileX sx t := by
    unfold ClampU
    rw [if_neg (by omega), if_neg (by omega)]
  have hcy : ClampU (TileY sx t) (TileY sx ta.tile) (TileY sx ta.tile + ta.h - 1) =
      TileY sx t := by
    unfold ClampU
    rw [if_neg (by omega), if_neg (by omega)]
  rw [hmain, hcx, hcy, TileXY, TileX, TileY]
  exact Nat.div_add_mod' t sx

/-- Witness for C4: on an 8×8 map, area with origin (2,3), width 4, height 2
(tile 26), the inside reference tile (3,4) (tile 35) is returned unchanged. -/
theorem closest_tile_clamps_witness :
    TileArea.get_closest_tile 8 ⟨26, 4, 2⟩ 35 = 35 :=
  (closest_tile_clamps 8 8 ⟨26, 4, 2⟩ 35 (by decide) (by decide) (by decide)
    (by decide) (by decide) (by decide) (by decide) (by decide) (by decide)).2
    (by decide)

/-- In-map coordinates compose to a linear index below `sx * sy`. -/
theorem TileXY_lt (sx sy x y : Nat) (hx : x < sx) (hy : y < sy) :
    TileXY sx x y < sx * sy := by
  unfold TileXY
  calc y * sx + x < y * sx + sx := by omega
    _ = (y + 1) * sx := by ring
    _ ≤ sy * sx := Nat.mul_le_mul (by omega) (Nat.le_refl sx)
    _ = sx * sy := Nat.mul_comm sy sx

/-- One `Next()` in the middle of a row: step one cell to the east. -/
theorem orthNext_mid (sx sy x0 y0 w h i j : Nat)
    (hxb : x0 + w ≤ sx) (hyb : y0 + h ≤ sy) (hmap : sx * sy ≤ u32 - 1)
    (hi : i + 1 < w) (hj : j < h) :
    orthNext (stateAt sx x0 y0 w h i j) = stateAt sx x0 y0 w h (i + 1) j := by
  have hmap' : sx * sy ≤ 4294967296 - 1 := hmap
  have hsxsy : sx ≤ sx * sy := Nat.le_mul_of_pos_right sx (by omega)
  have hsxlit : sx < 4294967296 := by omega
  have htlt : TileXY sx (x0 + (i + 1)) (y0 + j) < 4294967296 := by
    have := TileXY_lt sx sy (x0 + (i + 1)) (y0 + j) (by omega) (by omega)
    omega
  have hsum : TileXY sx (x0 + i) (y0 + j) + 1 = TileXY sx (x0 + (i + 1)) (y0 + j) := by
    unfold TileXY; ring
  simp only [orthNext, stateAt]
  rw [show (w - i + (u32 - 1)) % u32 = w - i - 1 by unfold u32; omega]
  rw [if_pos (show 0 < w - i - 1 by omega)]
  rw [OrthState.mk.injEq]
  refine ⟨?_, rfl, rfl, by omega, rfl⟩
  rw [hsum]
  exact Nat.mod_eq_of_lt htlt

/-- One `Next()` at the end of a non-final row: wrap to the next row's start. -/
theorem orthNext_rowend (sx sy x0 y0 w h j : Nat)
    (hxb : x0 + w ≤ sx) (hyb : y0 + h ≤ sy) (hmap : sx * sy ≤ u32 - 1)
    (hw : 0 < w) (hj : j + 1 < h) :
    orthNext (stateAt sx x0 y0 w h (w - 1) j) = stateAt sx x0 y0 w h 0 (j + 1) := by
  have hmap' : sx * sy ≤ 4294967296 - 1 := hmap
  have hsxsy : sx ≤ sx * sy := Nat.le_mul_of_pos_right sx (by omega)
  have hsy' : sy ≤ sx * sy := Nat.le_mul_of_pos_left sy (by omega)
  have hsxlit : sx < 4294967296 := by omega
  have hsylit : sy < 4294967296 := by omega
  have htlt : TileXY sx (x0 + 0) (y0 + (j + 1)) < 4294967296 := by
    have := TileXY_lt sx sy (x0 + 0) (y0 + (j + 1)) (by omega) (by omega)
    omega
  have hsum : TileXY sx (x0 + (w - 1)) (y0 + j) + (sx + 1 - w) =
      TileXY sx (x0 + 0) (y0 + (j + 1)) := by
    unfold TileXY
    rw [Nat.add_assoc]
    rw [show x0 + (w - 1) + (sx + 1 - w) = x0 + sx by omega]
    ring
  simp only [orthNext, stateAt]
  rw [show (w - (w - 1) + (u32 - 1)) % u32 = 0 by unfold u32; omega]
  rw [if_neg (by omega)]
  rw [show (h - j + (u32 - 1)) % u32 = h - j - 1 by unfold u32; omega]
  rw [if_pos (show 0 < h - j - 1 by omega)]
  rw [OrthState.mk.injEq]
  refine ⟨?_, rfl, rfl, by omega, by omega⟩
  rw [hsum]
  exact Nat.mod_eq_of_lt htlt

/-- The final `Next()`, on the last cell: current becomes `INVALID_TILE`. -/
theorem orthNext_last (sx x0 y0 w h : Nat) (hw : 0 < w) (hh : 0 < h) :
    orthNext (stateAt sx x0 y0 w h (w - 1) (h - 1)) =
      { tile := INVALID_TILE, w := w, rowdiff := sx + 1 - w, x := 0, y := 0 } := by
  simp only [orthNext, stateAt]
  rw [show (w - (w - 1) + (u32 - 1)) % u32 = 0 by unfold u32; omega]
  rw [if_neg (by omega)]
  rw [show (h - (h - 1) + (u32 - 1)) % u32 = 0 by unfold u32; omega]
  rw [if_neg (by omega)]

/-- The freshly constructed iterator over a non-empty in-map area is the
closed-form state at cell `(0, 0)` of the rectangle. -/
theorem mkOrth_formula (sx sy : Nat) (ta : TileArea)
    (hw : 0 < ta.w) (hh : 0 < ta.h)
    (hxb : TileX sx ta.tile + ta.w ≤ sx) (hyb : TileY sx ta.tile + ta.h ≤ sy)
    (hmap : sx * sy ≤ u32 - 1) :
    mkOrth sx ta = stateAt sx (TileX sx ta.tile) (TileY sx ta.tile) ta.w ta.h 0 0 := by
  have hmap' : sx * sy ≤ 4294967296 - 1 := hmap
  have hsxsy : sx ≤ sx * sy := Nat.le_mul_of_pos_right sx (by omega)
  have hsxlit : sx < 4294967296 := by omega
  simp only [mkOrth, stateAt, TileDiffXY]
  rw [if_neg (by omega)]
  rw [OrthState.mk.injEq]
  refine ⟨?_, rfl, ?_, by omega, by omega⟩
  · have hdm := Nat.div_add_mod' ta.tile sx
    unfold TileXY TileX TileY
    simp only [Nat.add_zero]
    exact hdm.symm
  · unfold u32
    rw [Nat.mod_eq_of_lt (show ta.w < 4294967296 by omega)]
    omega

/-- State invariant of the orthogonal traversal: after `k < w*h` advances the
iterator sits at cell `(x0 + k % w, y0 + k / w)` with the matching counters. -/
theorem orthIter_formula (sx sy : Nat) (ta : TileArea)
    (hw : 0 < ta.w) (hh : 0 < ta.h)
    (hxb : TileX sx ta.tile + ta.w ≤ sx) (hyb : TileY sx ta.tile + ta.h ≤ sy)
    (hmap : sx * sy ≤ u32 - 1) :
    ∀ k, k < ta.w * ta.h →
      orthIter sx ta k =
        stateAt sx (TileX sx ta.tile) (TileY sx ta.tile) ta.w ta.h (k % ta.w) (k / ta.w) := by
  intro k
  induction k with
  | zero =>
    intro _
    rw [orthIter, Function.iterate_zero_apply, Nat.zero_mod, Nat.zero_div]
    exact mkOrth_formula sx sy ta hw hh hxb hyb hmap
  | succ k ih =>
    intro hk1
    have hk : k < ta.w * ta.h := by omega
    have ihk := ih hk
    have hjh : k / ta.w < ta.h := Nat.div_lt_of_lt_mul hk
    have hrec : ta.w * (k / ta.w) + k % ta.w = k := Nat.div_add_mod k ta.w
    rw [orthIter, Function.iterate_succ_apply', ← orthIter, ihk]
    by_cases hc : k % ta.w + 1 < ta.w
    · rw [orthNext_mid sx sy (TileX sx ta.tile) (TileY sx ta.tile) ta.w ta.h
        (k % ta.w) (k / ta.w) hxb hyb hmap hc hjh]
      have h1 : (k + 1) % ta.w = k % ta.w + 1 := by
        rw [show k + 1 = k % ta.w + 1 + ta.w * (k / ta.w) by omega]
        rw [Nat.add_mul_mod_self_left]
        exact Nat.mod_eq_of_lt hc
      have h2 : (k + 1) / ta.w = k / ta.w := by
        rw [show k + 1 = k % ta.w + 1 + ta.w * (k / ta.w) by omega]
        rw [Nat.add_mul_div_left _ _ hw, Nat.div_eq_of_lt hc, Nat.zero_add]
      rw [h1, h2]
    · have hiw : k % ta.w < ta.w := Nat.mod_lt _ hw
      have hkk : k + 1 = ta.w * (k / ta.w + 1) := by
        rw [Nat.mul_succ]; omega
      have hjh1 : k / ta.w + 1 < ta.h := by
        by_contra hcon
        have hcon' : ta.h ≤ k / ta.w + 1 := by omega
        have := Nat.mul_le_mul_left ta.w hcon'
        omega
      rw [show k % ta.w = ta.w - 1 by omega]
      rw [orthNext_rowend sx sy (TileX sx ta.tile) (TileY sx ta.tile) ta.w ta.h
        (k / ta.w) hxb hyb hmap hw hjh1]
      have h1 : (k + 1) % ta.w = 0 := by rw [hkk]; exact Nat.mul_mod_right _ _
      have h2 : (k + 1) / ta.w = k / ta.w + 1 := by
        rw [hkk]; exact Nat.mul_div_cancel_left _ hw
      rw [h1, h2]

/-- Row-major cell indices are strictly increasing in the step count. -/
theorem rowMajor_mono (sx x0 y0 w : Nat) (hw : 0 < w) (hwsx : x0 + w ≤ sx)
    (k1 k2 : Nat) (hlt : k1 < k2) :
    TileXY sx (x0 + k1 % w) (y0 + k1 / w) < TileXY sx (x0 + k2 % w) (y0 + k2 / w) := by
  have hi1 : k1 % w < w := Nat.mod_lt _ hw
  have hi2 : k2 % w < w := Nat.mod_lt _ hw
  have hj : k1 / w ≤ k2 / w := Nat.div_le_div_right (Nat.le_of_lt hlt)
  unfold TileXY
  rcases Nat.lt_or_ge (k1 / w) (k2 / w) with hjlt | hjge
  · calc (y0 + k1 / w) * sx + (x0 + k1 % w)
        < (y0 + k1 / w) * sx + (x0 + sx) := by omega
      _ = (y0 + k1 / w + 1) * sx + x0 := by ring
      _ ≤ (y0 + k2 / w) * sx + x0 := by
          have := Nat.mul_le_mul (show y0 + k1 / w + 1 ≤ y0 + k2 / w by omega)
            (Nat.le_refl sx)
          omega
      _ ≤ (y0 + k2 / w) * sx + (x0 + k2 % w) := by omega
  · have hjeq : k1 / w = k2 / w := by omega
    have e1 : w * (k1 / w) + k1 % w = k1 := Nat.div_add_mod k1 w
    have e2 : w * (k2 / w) + k2 % w = k2 := Nat.div_add_mod k2 w
    rw [hjeq] at e1
    rw [hjeq]
    omega

/-- Claim C1: over a non-empty in-map `TileArea`, the orthogonal iterator's current
tile after `k < w*h` advances is cell `(x0 + k % w, y0 + k / w)` — row-major
order, left-to-right then top-to-bottom — never the invalid tile before
`w*h` advances, the invalid tile exactly at `w*h` advances, and the `w*h`
yielded tiles are pairwise distinct. -/
theorem orth_iterates_row_major (sx sy : Nat) (ta : TileArea)
    (hw : 0 < ta.w) (hh : 0 < ta.h)
    (hxb : TileX sx ta.tile + ta.w ≤ sx) (hyb : TileY sx ta.tile + ta.h ≤ sy)
    (hmap : sx * sy ≤ u32 - 1) :
    (∀ k, k < ta.w * ta.h →
      (orthIter sx ta k).tile =
        TileXY sx (TileX sx ta.tile + k % ta.w) (TileY sx ta.tile + k / ta.w)) ∧
    (∀ k, k < ta.w * ta.h → (orthIter sx ta k).tile ≠ INVALID_TILE) ∧
    (orthIter sx ta (ta.w * ta.h)).tile = INVALID_TILE ∧
    ((List.range (ta.w * ta.h)).map (fun k => (orthIter sx ta k).tile)).Nodup := by
  have hfor := orthIter_formula sx sy ta hw hh hxb hyb hmap
  have hA : ∀ k, k < ta.w * ta.h →
      (orthIter sx ta k).tile =
        TileXY sx (TileX sx ta.tile + k % ta.w) (TileY sx ta.tile + k / ta.w) := by
    intro k hk
    rw [hfor k hk]
    exact rfl
  have hB : ∀ k, k < ta.w * ta.h → (orthIter sx ta k).tile ≠ INVALID_TILE := by
    intro k hk
    have hlt : (orthIter sx ta k).tile < sx * sy := by
      rw [hA k hk]
      exact TileXY_lt sx sy _ _ (by have := Nat.mod_lt k hw; omega)
        (by have := Nat.div_lt_of_lt_mul hk; omega)
    have hmap' : sx * sy ≤ 4294967296 - 1 := hmap
    show (orthIter sx ta k).tile ≠ 4294967295
    omega
  have hC : (orthIter sx ta (ta.w * ta.h)).tile = INVALID_TILE := by
    have hpos : 0 < ta.w * ta.h := Nat.mul_pos hw hh
    have hmulpred : ta.w * ta.h - 1 = ta.w * (ta.h - 1) + (ta.w - 1) := by
      have e : ta.w * ta.h = ta.w * (ta.h - 1) + ta.w := by
        rw [← Nat.mul_succ]
        congr 1
        omega
      omega
    have hi' : (ta.w * ta.h - 1) % ta.w = ta.w - 1 := by
      rw [hmulpred, Nat.mul_add_mod, Nat.mod_eq_of_lt (by omega)]
    have hj' : (ta.w * ta.h - 1) / ta.w = ta.h - 1 := by
      rw [hmulpred, Nat.mul_add_div hw, Nat.div_eq_of_lt (by omega), Nat.add_zero]
    have hk0 : ta.w * ta.h - 1 < ta.w * ta.h := by omega
    rw [show ta.w * ta.h = (ta.w * ta.h - 1) + 1 by omega]
    rw [orthIter, Function.iterate_succ_apply', ← orthIter, hfor _ hk0, hi', hj']
    rw [orthNext_last sx (TileX sx ta.tile) (TileY sx ta.tile) ta.w ta.h hw hh]
  have hmono : ∀ k1 k2, k1 < k2 → k2 < ta.w * ta.h →
      (orthIter sx ta k1).tile < (orthIter sx ta k2).tile := by
    intro k1 k2 hlt hk2
    have hk1 : k1 < ta.w * ta.h := by omega
    rw [hA k1 hk1, hA k2 hk2]
    exact rowMajor_mono sx (TileX sx ta.tile) (TileY sx ta.tile) ta.w hw hxb k1 k2 hlt
  refine ⟨hA, hB, hC, ?_⟩
  refine List.Nodup.map_on ?_ (List.nodup_range _)
  intro k1 hk1 k2 hk2 heq
  rw [List.mem_range] at hk1 hk2
  by_contra hne
  rcases Nat.lt_or_ge k1 k2 with hl | hg
  · have := hmono k1 k2 hl hk2
    omega
  · have hl2 : k2 < k1 := by omega
    have := hmono k2 k1 hl2 hk1
    omega

/-- Witness for C1: the spec's concrete scenario, origin (2,3), width 4,
height 2 on an 8×8 map — 8 cells in row-major order, then the invalid tile. -/
theorem orth_iterates_row_major_witness :
    (∀ k, k < (⟨26, 4, 2⟩ : TileArea).w * (⟨26, 4, 2⟩ : TileArea).h →
      (orthIter 8 ⟨26, 4, 2⟩ k).tile =
        TileXY 8 (TileX 8 26 + k % 4) (TileY 8 26 + k / 4)) ∧
    (orthIter 8 ⟨26, 4, 2⟩ ((⟨26, 4, 2⟩ : TileArea).w * (⟨26, 4, 2⟩ : TileArea).h)).tile =
      INVALID_TILE := by
  have h := orth_iterates_row_major 8 8 ⟨26, 4, 2⟩ (by decide) (by decide)
    (by decide) (by decide) (by decide)
  exact ⟨h.1, h.2.2.1⟩

/-- Decomposition recovers the x coordinate of an in-map composition. -/
theorem TileX_XY (sx x y : Nat) (hx : x < sx) : TileX sx (TileXY sx x y) = x := by
  unfold TileX TileXY
  rw [show y * sx + x = x + sx * y by ring, Nat.add_mul_mod_self_left]
  exact Nat.mod_eq_of_lt hx

/-- Decomposition recovers the y coordinate of an in-map composition. -/
theorem TileY_XY (sx x y : Nat) (hx : x < sx) : TileY sx (TileXY sx x y) = y := by
  unfold TileY TileXY
  rw [show y * sx + x = x + sx * y by ring,
    Nat.add_mul_div_left _ _ (by omega), Nat.div_eq_of_lt hx, Nat.zero_add]

/-- A tile is in ring `u` exactly when it is an in-map tile on diagonal
`x + y = u` whose rotated coordinate `x - y` lies in `[vmin, vmax]`. -/
theorem mem_ringCells (sx sy : Nat) (hsx : 0 < sx) (vmin vmax : Int) (u t : Nat) :
    t ∈ ringCells sx sy vmin vmax u ↔
      (t < sx * sy ∧ TileX sx t + TileY sx t = u ∧
       vmin ≤ (TileX sx t : Int) - TileY sx t ∧
       (TileX sx t : Int) - TileY sx t ≤ vmax) := by
  unfold ringCells
  simp only [List.mem_map, List.mem_filter, List.mem_range, Bool.and_eq_true,
    decide_eq_true_eq]
  constructor
  · rintro ⟨x, ⟨hxsx, ⟨⟨⟨hxu, hysy⟩, hv1⟩, hv2⟩⟩, rfl⟩
    have hx' := TileX_XY sx x (u - x) hxsx
    have hy' := TileY_XY sx x (u - x) hxsx
    refine ⟨TileXY_lt sx sy x (u - x) hxsx hysy, ?_, ?_, ?_⟩
    · rw [hx', hy']; omega
    · rw [hx', hy']; omega
    · rw [hx', hy']; omega
  · rintro ⟨htlt, hu, hv1, hv2⟩
    have hxlt : TileX sx t < sx := Nat.mod_lt t hsx
    have hylt : TileY sx t < sy := Nat.div_lt_of_lt_mul htlt
    refine ⟨TileX sx t, ⟨hxlt, ⟨⟨⟨by omega, by omega⟩, by omega⟩, by omega⟩⟩, ?_⟩
    rw [show u - TileX sx t = TileY sx t by omega]
    unfold TileXY TileX TileY
    exact Nat.div_add_mod' t sx

/-- Membership in the traversed rotated-coordinate interval. -/
theorem mem_uRange (a b u : Nat) : u ∈ uRange a b ↔ (min a b ≤ u ∧ u ≤ max a b) := by
  unfold uRange
  by_cases hab : a ≤ b
  · rw [if_pos hab]
    simp only [List.mem_range']
    constructor
    · rintro ⟨i, hi, rfl⟩; omega
    · rintro ⟨h1, h2⟩; exact ⟨u - a, by omega, by omega⟩
  · rw [if_neg hab]
    simp only [List.mem_reverse, List.mem_range']
    constructor
    · rintro ⟨i, hi, rfl⟩; omega
    · rintro ⟨h1, h2⟩; exact ⟨u - b, by omega, by omega⟩

/-- Each ring lists pairwise-distinct tiles. -/
theorem ringCells_nodup (sx sy : Nat) (_hsx : 0 < sx) (vmin vmax : Int) (u : Nat) :
    (ringCells sx sy vmin vmax u).Nodup := by
  unfold ringCells
  refine List.Nodup.map_on ?_ ((List.nodup_range sx).filter _)
  intro x hx y hy heq
  rw [List.mem_filter, List.mem_range] at hx hy
  have hback := TileX_XY sx x (u - x) hx.1
  rw [heq, TileX_XY sx y (u - y) hy.1] at hback
  exact hback.symm

/-- The diagonal traversal's yield is exactly the in-map diamond. -/
theorem mem_diagTiles (sx sy b e t : Nat) (hsx : 0 < sx) :
    t ∈ diagTiles sx sy b e ↔ (t < sx * sy ∧ InDiamond sx b e t) := by
  unfold diagTiles InDiamond
  simp only [List.mem_flatMap, mem_uRange, mem_ringCells sx sy hsx]
  constructor
  · rintro ⟨u, ⟨hu1, hu2⟩, htlt, hsum, hv1, hv2⟩
    rw [← hsum] at hu1 hu2
    exact ⟨htlt, hu1, hu2, hv1, hv2⟩
  · rintro ⟨htlt, h1, h2, h3, h4⟩
    exact ⟨TileX sx t + TileY sx t, ⟨h1, h2⟩, htlt, rfl, h3, h4⟩

/-- The diagonal traversal yields each cell at most once. -/
theorem diagTiles_nodup (sx sy b e : Nat) (hsx : 0 < sx) :
    (diagTiles sx sy b e).Nodup := by
  unfold diagTiles
  rw [List.nodup_flatMap]
  constructor
  · intro u _
    exact ringCells_nodup sx sy hsx _ _ u
  · have hnd : (uRange (TileX sx b + TileY sx b) (TileX sx e + TileY sx e)).Nodup := by
      unfold uRange
      by_cases hab : TileX sx b + TileY sx b ≤ TileX sx e + TileY sx e
      · rw [if_pos hab]; exact List.nodup_range' _ _
      · rw [if_neg hab]; exact List.nodup_reverse.mpr (List.nodup_range' _ _)
    refine List.Pairwise.imp ?_ hnd
    intro u v hne t ht1 ht2
    rw [mem_ringCells sx sy hsx] at ht1 ht2
    exact hne (ht1.2.1.symm.trans ht2.2.1)

/-- The yield count equals the cardinality of the in-map diamond. -/
theorem diagTiles_length (sx sy b e : Nat) (hsx : 0 < sx) :
    (diagTiles sx sy b e).length =
      ((List.range (sx * sy)).filter (fun t => decide (InDiamond sx b e t))).length := by
  refine List.Perm.length_eq ?_
  rw [List.perm_ext_iff_of_nodup (diagTiles_nodup sx sy b e hsx)
    ((List.nodup_range _).filter _)]
  intro a
  rw [mem_diagTiles sx sy b e a hsx, List.mem_filter, List.mem_range, decide_eq_true_eq]

/-- Equal corners give the one-cell diamond. -/
theorem diagTiles_self (sx sy b : Nat) (hsx : 0 < sx) (hb : b < sx * sy) :
    diagTiles sx sy b b = [b] := by
  refine List.perm_singleton.mp ?_
  rw [List.perm_ext_iff_of_nodup (diagTiles_nodup sx sy b b hsx) (List.nodup_singleton b)]
  intro a
  rw [mem_diagTiles sx sy b b a hsx, List.mem_singleton]
  simp only [InDiamond, TileX, TileY]
  constructor
  · rintro ⟨halt, h1, h2, h3, h4⟩
    have e1 : sx * (a / sx) + a % sx = a := Nat.div_add_mod a sx
    have e2 : sx * (b / sx) + b % sx = b := Nat.div_add_mod b sx
    have hy : a / sx = b / sx := by omega
    rw [hy] at e1
    omega
  · rintro rfl
    exact ⟨hb, by omega, by omega, by omega, by omega⟩

/-- Claim C2: the diagonal traversal yields exactly the in-map cells of the diamond
bounded by the two corners (in both rotated coordinates), each exactly once,
with total count the diamond's cell count; equal corners yield exactly that
one cell and then the invalid cell. -/
theorem diag_iterates_diamond (sx sy b e : Nat) (hsx : 0 < sx) (hb : b < sx * sy) :
    (∀ t, t < sx * sy → (t ∈ diagTiles sx sy b e ↔ InDiamond sx b e t)) ∧
    (diagTiles sx sy b e).Nodup ∧
    (diagTiles sx sy b e).length =
      ((List.range (sx * sy)).filter (fun t => decide (InDiamond sx b e t))).length ∧
    diagTiles sx sy b b = [b] ∧
    diagCurrent sx sy b b 0 = b ∧ diagCurrent sx sy b b 1 = INVALID_TILE := by
  have hself := diagTiles_self sx sy b hsx hb
  refine ⟨?_, diagTiles_nodup sx sy b e hsx, diagTiles_length sx sy b e hsx,
    hself, ?_, ?_⟩
  · intro t htlt
    rw [mem_diagTiles sx sy b e t hsx]
    exact ⟨fun h => h.2, fun h => ⟨htlt, h⟩⟩
  · rw [diagCurrent, hself]; rfl
  · rw [diagCurrent, hself]; rfl

/-- Witness for C2: corners (2,0) and (0,2) on a 4×4 map — the three-cell
diagonal — and the equal-corner singleton scenario. -/
theorem diag_iterates_diamond_witness :
    (diagTiles 4 4 2 8).Nodup ∧ diagTiles 4 4 2 2 = [2] ∧
    diagCurrent 4 4 2 2 1 = INVALID_TILE := by
  have h := diag_iterates_diamond 4 4 2 8 (by decide) (by decide)
  exact ⟨h.2.1, h.2.2.2.1, h.2.2.2.2.2⟩

end TileAreaSpec
